import Mathlib

/-!
Verification of the text-transformation core of the `ircpush` repository
(rule-based IRC highlighting engine and message segmenter) against its
natural-language specification.

Strings are shallowly embedded as lists of Unicode scalar values
(`List Char`), matching Go's `[]rune` view.  Byte-level positions coincide
with rune positions on ASCII inputs, which covers every concrete scenario
below; `segmentMessage` operates on runes in the Go source itself.
-/

namespace Ircpush

/-- Go strings, viewed as their sequence of runes (`[]rune(s)`). -/
abbrev Str := List Char

/-- IRC color control byte `\x03` (source: `highlight.go`, const `ircColor`). -/
def ircColor : Char := Char.ofNat 3

/-- IRC bold control byte `\x02` (source: const `ircBold`). -/
def ircBold : Char := Char.ofNat 2

/-- IRC underline control byte `\x1F` (source: const `ircUnder`). -/
def ircUnder : Char := Char.ofNat 31

/-- IRC reset control byte `\x0F` (source: const `ircReset`). -/
def ircReset : Char := Char.ofNat 15

/-- Model of Go `unicode.IsSpace` restricted to the Latin-1 range
(`\t`, `\n`, `\v`, `\f`, `\r`, space, NEL, NBSP); the claims only ever
trim ASCII whitespace. -/
def isSpaceChar (c : Char) : Bool :=
  c = ' ' ∨ c = Char.ofNat 9 ∨ c = Char.ofNat 10 ∨ c = Char.ofNat 11 ∨
  c = Char.ofNat 12 ∨ c = Char.ofNat 13 ∨ c = Char.ofNat 133 ∨ c = Char.ofNat 160

/-- Model of Go `strings.TrimSpace`: drop whitespace from both ends. -/
def trimSpace (s : Str) : Str :=
  ((s.dropWhile isSpaceChar).reverse.dropWhile isSpaceChar).reverse

/-- Model of Go `strings.ToLower`, rune by rune (ASCII-accurate; all
channel names and rule kinds in the claims are ASCII). -/
def toLowerStr (s : Str) : Str := s.map Char.toLower

/-- Go slice expression `s[a:b]` on a rune sequence. -/
def slice (s : Str) (a b : Nat) : Str := (s.take b).drop a

/-! ## Message segmenter (source: `pkg/irc/client.go`, `segmentMessage` / `lastSpace`) -/

/-- Source `lastSpace`: index of the last plain-space rune, `-1` if none.
The Go loop scans backwards from the end; here the same value is computed
by structural recursion (a space in the tail shadows the head). -/
def lastSpace : Str → Int
  | [] => -1
  | c :: rest =>
    let r := lastSpace rest
    if 0 ≤ r then r + 1
    else if c = ' ' then 0 else -1

theorem dropWhile_length_le (p : Char → Bool) (l : Str) :
    (l.dropWhile p).length ≤ l.length := by
  induction l with
  | nil => simp [List.dropWhile]
  | cons c rest ih =>
    simp only [List.dropWhile]
    split
    · exact Nat.le_trans ih (Nat.le_succ _)
    · simp

/-- One iteration's window computation in the split-mode loop of
`segmentMessage`: carve `rs.take limit` (Go: `segment := runes[start:end]`
with `end := min(start+limit, len(runes))`); if the window does not reach
the end of the message (`end < len(runes)`, i.e. `limit < rs.length`) and
the window has a space at position `idx > 0`, shrink the window to end
just before that space (`segment = runes[start : start+idx]`). -/
def shrinkWindow (limit : Nat) (rs : Str) : Str :=
  let seg := rs.take limit
  if limit < rs.length ∧ 0 < lastSpace seg then seg.take (lastSpace seg).toNat
  else seg

theorem shrinkWindow_pos (limit : Nat) (hpos : 0 < limit) (c : Char) (rest : Str) :
    0 < (shrinkWindow limit (c :: rest)).length := by
  unfold shrinkWindow
  simp only
  split
  · rename_i h
    simp only [List.length_take, List.length_cons]
    omega
  · simp only [List.length_take, List.length_cons]
    omega

/-- The split-mode loop of `segmentMessage`, rewritten from cursor
arithmetic over the full rune array to structural recursion on the
not-yet-consumed suffix `rs` (the Go cursor `start` corresponds to
`msg.length - rs.length`; `runes[start:end]` is `rs.take (end - start)`,
and advancing the cursor past the emitted chunk and the following run of
spaces is dropping the chunk and then `dropWhile (= ' ')`).  `hpos`
records that the caller only enters the loop with a positive limit, which
is what makes the Go loop terminate. -/
def segSplit (limit : Nat) (hpos : 0 < limit) : Str → List Str
  | [] => []
  | c :: rest =>
    shrinkWindow limit (c :: rest) ::
      segSplit limit hpos
        (((c :: rest).drop (shrinkWindow limit (c :: rest)).length).dropWhile (fun d => d = ' '))
termination_by s => s.length
decreasing_by
  have hpos' := shrinkWindow_pos limit hpos c rest
  have hdw := dropWhile_length_le (fun d => d = ' ')
    ((c :: rest).drop (shrinkWindow limit (c :: rest)).length)
  rw [List.length_drop] at hdw
  simp only [List.length_cons] at *
  omega

/-- Source `segmentMessage` (method on the IRC client), with the
configuration fields `MaxMessageLen` and `SplitLong` passed explicitly.
`limit` keeps Go's signed-int type. -/
def segmentMessage (limit : Int) (splitLong : Bool) (msg : Str) : List Str :=
  if h : limit ≤ 0 then [msg]
  else if (msg.length : Int) ≤ limit then [msg]
  else if !splitLong then
    if 3 < limit then [msg.take (limit - 3).toNat ++ "...".data]
    else [msg.take limit.toNat]
  else segSplit limit.toNat (by omega) msg

/-! ### Supporting lemmas about the segmenter -/

theorem take_self (rs : Str) (m : Nat) : rs.take m = rs.take (rs.take m).length := by
  rw [List.take_eq_take]
  simp only [List.length_take]
  omega

theorem shrinkWindow_isPre (limit : Nat) (rs : Str) :
    shrinkWindow limit rs = rs.take (shrinkWindow limit rs).length := by
  unfold shrinkWindow
  simp only
  split
  · rw [List.take_take]
    exact take_self rs _
  · exact take_self rs limit

theorem shrinkWindow_len_le (limit : Nat) (rs : Str) :
    (shrinkWindow limit rs).length ≤ limit := by
  unfold shrinkWindow
  simp only
  split
  · simp only [List.length_take]
    omega
  · simp only [List.length_take]
    omega

theorem segSplit_chunk_le (limit : Nat) (hpos : 0 < limit) (rs : Str) :
    ∀ ch ∈ segSplit limit hpos rs, ch.length ≤ limit := by
  induction rs using segSplit.induct limit hpos with
  | case1 => intro ch hch; rw [segSplit] at hch; cases hch
  | case2 c rest ih =>
    intro ch hch
    rw [segSplit] at hch
    rcases List.mem_cons.mp hch with h | h
    · exact h ▸ shrinkWindow_len_le limit (c :: rest)
    · exact ih ch h

/-- Head of a `dropWhile` result never satisfies the dropped predicate. -/
theorem head_dropWhile_not (p : Char → Bool) (l : Str) (a : Char)
    (h : (l.dropWhile p).head? = some a) : p a = false := by
  induction l with
  | nil => simp [List.dropWhile] at h
  | cons c rest ih =>
    by_cases hc : p c
    · rw [List.dropWhile_cons, if_pos hc] at h
      exact ih h
    · rw [List.dropWhile_cons, if_neg hc] at h
      simp only [List.head?] at h
      cases h
      simpa using hc

theorem segSplit_head_not_space (limit : Nat) (hpos : 0 < limit) (rs : Str) :
    rs.head? ≠ some ' ' → ∀ ch ∈ segSplit limit hpos rs, ch.head? ≠ some ' ' := by
  induction rs using segSplit.induct limit hpos with
  | case1 => intro _ ch hch; rw [segSplit] at hch; cases hch
  | case2 c rest ih =>
    intro hhd ch hch
    rw [segSplit] at hch
    rcases List.mem_cons.mp hch with h | h
    · subst h
      obtain ⟨n, hn⟩ : ∃ n, (shrinkWindow limit (c :: rest)).length = n + 1 := by
        have := shrinkWindow_pos limit hpos c rest
        exact ⟨_, (Nat.succ_pred_eq_of_pos this).symm⟩
      have := shrinkWindow_isPre limit (c :: rest)
      rw [hn, List.take_succ_cons] at this
      rw [this]
      simpa using hhd
    · refine ih ?_ ch h
      intro hcon
      have := head_dropWhile_not (fun d => d = ' ') _ _ hcon
      simp at this

theorem segSplit_tail_not_space (limit : Nat) (hpos : 0 < limit) (rs : Str) :
    ∀ ch ∈ (segSplit limit hpos rs).tail, ch.head? ≠ some ' ' := by
  cases rs with
  | nil => intro ch hch; rw [segSplit] at hch; cases hch
  | cons c rest =>
    intro ch hch
    rw [segSplit] at hch
    simp only [List.tail_cons] at hch
    refine segSplit_head_not_space limit hpos _ ?_ ch hch
    intro hcon
    have := head_dropWhile_not (fun d => d = ' ') _ _ hcon
    simp at this

/-- A chunk decomposition of `m`: the chunks are non-empty contiguous
pieces of `m`, occurring in order at pairwise-disjoint positions, and
every rune of `m` not inside a chunk lies in one of the all-space gaps
between (or after) the chunks. -/
inductive Covers : Str → List Str → Prop
  | nil : Covers [] []
  | cons (chunk gap rest : Str) (chunks : List Str) :
      chunk ≠ [] → (∀ d ∈ gap, d = ' ') → Covers rest chunks →
      Covers (chunk ++ gap ++ rest) (chunk :: chunks)

theorem covers_chunks_ne_nil {m : Str} {cs : List Str} (h : Covers m cs) :
    ∀ ch ∈ cs, ch ≠ [] := by
  induction h with
  | nil => intro ch hch; cases hch
  | cons chunk gap rest chunks hne _ _ ih =>
    intro ch hch
    rcases List.mem_cons.mp hch with h | h
    · exact h ▸ hne
    · exact ih ch h

theorem segSplit_covers (limit : Nat) (hpos : 0 < limit) (rs : Str) :
    Covers rs (segSplit limit hpos rs) := by
  induction rs using segSplit.induct limit hpos with
  | case1 => rw [segSplit]; exact Covers.nil
  | case2 c rest ih =>
    rw [segSplit]
    have hsplit : c :: rest =
        shrinkWindow limit (c :: rest) ++
          (((c :: rest).drop (shrinkWindow limit (c :: rest)).length).takeWhile (fun d => d = ' ') ++
           ((c :: rest).drop (shrinkWindow limit (c :: rest)).length).dropWhile (fun d => d = ' ')) := by
      rw [List.takeWhile_append_dropWhile]
      conv_lhs => rw [← List.take_append_drop (shrinkWindow limit (c :: rest)).length (c :: rest)]
      rw [← shrinkWindow_isPre]
    conv_lhs => rw [hsplit, ← List.append_assoc]
    refine Covers.cons _ _ _ _ ?_ ?_ ih
    · have := shrinkWindow_pos limit hpos c rest
      intro hcon
      rw [hcon] at this
      simp at this
    · intro d hd
      simpa using List.mem_takeWhile_imp hd

/-! ### Claims C5, C6, C7, C10 -/

/-- C5: in truncate mode (`splitLong = false`), `segmentMessage` returns
`[message]` when `maxLen ≤ 0` or the rune length of the message is at most
`maxLen`; otherwise, when `maxLen > 3`, a single chunk of the first
`maxLen − 3` runes followed by `"..."`; otherwise (`0 < maxLen ≤ 3`) a
single chunk of the first `maxLen` runes with no ellipsis.  Length counts
Unicode code points: `segment("abcdefghi", 5, false) = ["ab..."]`,
`segment("abcdef", 3, false) = ["abc"]`, and `segment("😊😊😊😊", 3, false)`
yields one chunk of exactly 3 code points. -/
theorem claim5_truncate_mode :
    (∀ (limit : Int) (msg : Str), limit ≤ 0 ∨ (msg.length : Int) ≤ limit →
      segmentMessage limit false msg = [msg]) ∧
    (∀ (limit : Int) (msg : Str), 3 < limit → limit < (msg.length : Int) →
      segmentMessage limit false msg = [msg.take (limit - 3).toNat ++ "...".data]) ∧
    (∀ (limit : Int) (msg : Str), 0 < limit → limit ≤ 3 → limit < (msg.length : Int) →
      segmentMessage limit false msg = [msg.take limit.toNat]) ∧
    segmentMessage 5 false "abcdefghi".data = ["ab...".data] ∧
    segmentMessage 3 false "abcdef".data = ["abc".data] ∧
    segmentMessage 3 false "😊😊😊😊".data = ["😊😊😊".data] ∧
    "😊😊😊".data.length = 3 := by
  refine ⟨?_, ?_, ?_, by decide, by decide, by decide, by decide⟩
  · intro limit msg h
    unfold segmentMessage
    rcases h with h | h
    · rw [dif_pos h]
    · by_cases h0 : limit ≤ 0
      · rw [dif_pos h0]
      · rw [dif_neg h0, if_pos h]
  · intro limit msg h3 hlen
    unfold segmentMessage
    rw [dif_neg (by omega), if_neg (by omega)]
    simp only [Bool.not_false, if_pos h3]
    rfl
  · intro limit msg h0 h3 hlen
    unfold segmentMessage
    rw [dif_neg (by omega), if_neg (by omega)]
    simp only [Bool.not_false, if_neg (by omega : ¬ (3:Int) < limit)]
    rfl

/-- C5 witness: the three conditional clauses applied at concrete inputs. -/
theorem claim5_truncate_mode_witness :
    segmentMessage 10 false "ab".data = ["ab".data] ∧
    segmentMessage 5 false "abcdefghi".data = ["ab".data ++ "...".data] ∧
    segmentMessage 2 false "abcd".data = ["ab".data] :=
  ⟨claim5_truncate_mode.1 10 "ab".data (Or.inr (by decide)),
   claim5_truncate_mode.2.1 5 "abcdefghi".data (by decide) (by decide),
   claim5_truncate_mode.2.2.1 2 "abcd".data (by decide) (by decide) (by decide)⟩

/-- C6: in split mode every produced chunk has rune length at most the
(positive) limit. -/
theorem claim6_split_length_bound (limit : Int) (hpos : 0 < limit) (msg : Str) :
    ∀ ch ∈ segmentMessage limit true msg, (ch.length : Int) ≤ limit := by
  intro ch hch
  unfold segmentMessage at hch
  rw [dif_neg (by omega)] at hch
  by_cases hlen : (msg.length : Int) ≤ limit
  · rw [if_pos hlen] at hch
    simp only [List.mem_singleton] at hch
    subst hch
    omega
  · rw [if_neg hlen] at hch
    simp only [Bool.not_true] at hch
    rw [if_neg Bool.false_ne_true] at hch
    have := segSplit_chunk_le limit.toNat (by omega) msg ch hch
    omega

/-- C6 witness: the bound applied to a concrete chunk of a concrete
split. -/
theorem claim6_split_length_bound_witness :
    (0 : Int) < 3 ∧ (("abc".data.length : Int) ≤ 3) :=
  ⟨by decide,
   claim6_split_length_bound 3 (by decide) "abcd ef".data "abc".data
     (by simp [segmentMessage, segSplit, shrinkWindow, lastSpace])⟩

/-- C7: in split mode with `0 < maxLen < length(message)`, the segmenter
enters a loop that carves a window of up to `maxLen` runes from the
remaining message; when the window does not reach the end and contains a
space at position `> 0`, the window is shrunk to end just before the last
space; the window is emitted and any run of spaces at the new cursor is
skipped, so no chunk after the first starts with a space; a window without
a space is emitted as-is.  On the literal scenario the result is
`["Hello this is a message that", "should be split properly.",
"Let's see how it works! :)"]`. -/
theorem claim7_split_mode :
    (∀ (limit : Int) (msg : Str) (h1 : 0 < limit), limit < (msg.length : Int) →
      segmentMessage limit true msg = segSplit limit.toNat (by omega) msg) ∧
    (∀ (limit : Nat) (hpos : 0 < limit) (c : Char) (rest : Str),
      segSplit limit hpos (c :: rest) =
        (let seg := (c :: rest).take limit
         let seg' := if limit < (c :: rest).length ∧ 0 < lastSpace seg
           then seg.take (lastSpace seg).toNat else seg
         seg' :: segSplit limit hpos (((c :: rest).drop seg'.length).dropWhile (fun d => d = ' ')))) ∧
    (∀ (limit : Nat) (hpos : 0 < limit) (msg : Str),
      ∀ ch ∈ (segSplit limit hpos msg).tail, ch.head? ≠ some ' ') ∧
    segmentMessage 30 true
        "Hello this is a message that should be split properly. Let's see how it works! :)".data =
      ["Hello this is a message that".data, "should be split properly.".data,
       "Let's see how it works! :)".data] := by
  refine ⟨?_, ?_, segSplit_tail_not_space, ?_⟩
  · intro limit msg h1 hlen
    unfold segmentMessage
    rw [dif_neg (by omega), if_neg (by omega)]
    simp
  · intro limit hpos c rest
    rw [segSplit]
    rfl
  · simp [segmentMessage, segSplit, shrinkWindow, lastSpace]

/-- C7 witness: the conditional clauses applied at concrete inputs. -/
theorem claim7_split_mode_witness :
    segmentMessage 3 true "ab cd".data = segSplit 3 (by decide) "ab cd".data ∧
    segSplit 3 (by decide) "ab cd".data =
      ("ab".data :: segSplit 3 (by decide) "cd".data) ∧
    ∀ ch ∈ (segSplit 3 (by decide) "ab cd".data).tail, ch.head? ≠ some ' ' := by
  refine ⟨claim7_split_mode.1 3 "ab cd".data (by decide) (by decide), ?_, ?_⟩
  · have h := claim7_split_mode.2.1 3 (by decide) 'a' "b cd".data
    rw [h]
    simp [lastSpace]
  · exact claim7_split_mode.2.2.1 3 (by decide) "ab cd".data

/-- C10 (implicit): in split mode with `0 < maxLen < length(message)`,
the chunks are non-empty contiguous substrings of the original message,
occur in order at pairwise-disjoint positions, and every rune not covered
by a chunk is a space (only spaces between chunks, or trailing spaces, are
dropped). -/
theorem claim10_split_cover (limit : Int) (msg : Str)
    (h1 : 0 < limit) (h2 : limit < (msg.length : Int)) :
    Covers msg (segmentMessage limit true msg) ∧
    ∀ ch ∈ segmentMessage limit true msg, ch ≠ [] := by
  have heq : segmentMessage limit true msg = segSplit limit.toNat (by omega) msg := by
    unfold segmentMessage
    rw [dif_neg (by omega), if_neg (by omega)]
    simp
  rw [heq]
  have hc := segSplit_covers limit.toNat (by omega) msg
  exact ⟨hc, covers_chunks_ne_nil hc⟩

/-- C10 witness: the cover property on a concrete split. -/
theorem claim10_split_cover_witness :
    Covers "ab cd".data (segmentMessage 3 true "ab cd".data) ∧
    ∀ ch ∈ segmentMessage 3 true "ab cd".data, ch ≠ [] :=
  claim10_split_cover 3 "ab cd".data (by decide) (by decide)

/-! ## Shell-glob matching (model of Go `path/filepath.Match`, the library
function called by `globMatch` in `highlight.go`) -/

/-- Model of `getEsc` in Go's `path/filepath/match.go`: read one
(possibly backslash-escaped) rune of a character class.  A leading `-` or
`]`, or a dangling backslash, is a bad pattern (`none`). -/
def getEsc : Str → Option (Char × Str)
  | [] => none
  | c :: rest =>
    if c = '-' ∨ c = ']' then none
    else if c = '\\' then
      match rest with
      | [] => none
      | e :: r => some (e, r)
    else some (c, rest)

theorem getEsc_length {cs : Str} {c : Char} {r : Str} (h : getEsc cs = some (c, r)) :
    r.length < cs.length := by
  match cs with
  | [] => simp [getEsc] at h
  | d :: rest =>
    simp only [getEsc] at h
    split at h
    · cases h
    · split at h
      · split at h
        · cases h
        · simp only [Option.some.injEq, Prod.mk.injEq] at h
          obtain ⟨h1, h2⟩ := h
          subst h2
          simp only [List.length_cons]
          omega
      · simp only [Option.some.injEq, Prod.mk.injEq] at h
        obtain ⟨h1, h2⟩ := h
        subst h2
        simp only [List.length_cons]
        omega

/-- Scan the body of a character class after `[` (and an optional `^`):
a non-empty sequence of single runes or `lo-hi` ranges terminated by `]`.
Anything else (including a missing `]`) is a bad pattern.  Go checks
`chunk[0] == '-'` on a non-empty chunk, which is `cs1.head? = some '-'`
here. -/
def scanRanges : Str → Bool → Option (List (Char × Char) × Str)
  | [], _ => none
  | c :: cs, seen =>
    if c = ']' then (if seen then some ([], cs) else none)
    else
      match h1 : getEsc (c :: cs) with
      | none => none
      | some (lo, cs1) =>
        if cs1.head? = some '-' then
          match h3 : getEsc cs1.tail with
          | none => none
          | some (hi, cs3) =>
            match scanRanges cs3 true with
            | none => none
            | some (rs, rest) => some ((lo, hi) :: rs, rest)
        else
          match scanRanges cs1 true with
          | none => none
          | some (rs, rest) => some ((lo, lo) :: rs, rest)
termination_by cs _ => cs.length
decreasing_by
  · have hl1 := getEsc_length h1
    have hl3 := getEsc_length h3
    have ht : cs1.tail.length ≤ cs1.length := by cases cs1 <;> simp
    simp only [List.length_cons] at *
    omega
  · have hl1 := getEsc_length h1
    simp only [List.length_cons] at *
    omega
theorem scanRanges_length_aux : ∀ (n : Nat) (cs : Str), cs.length ≤ n →
    ∀ (seen : Bool) (rs : List (Char × Char)) (rest : Str),
      scanRanges cs seen = some (rs, rest) → rest.length < cs.length := by
  intro n
  induction n with
  | zero =>
    intro cs hle seen rs rest h
    match cs with
    | [] => simp [scanRanges] at h
  | succ n ih =>
    intro cs hle seen rs rest h
    match cs with
    | [] => simp [scanRanges] at h
    | c :: cs0 =>
      rw [scanRanges] at h
      split at h
      · split at h
        · simp only [Option.some.injEq, Prod.mk.injEq] at h
          obtain ⟨h1, h2⟩ := h
          subst h2
          simp
        · cases h
      · split at h
        · cases h
        · rename_i lo cs1 hget
          split at h
          · split at h
            · cases h
            · rename_i hi cs3 hget3
              split at h
              · cases h
              · rename_i rs2 rest2 hrec
                simp only [Option.some.injEq, Prod.mk.injEq] at h
                obtain ⟨h1, h2⟩ := h
                subst h2
                have hl1 := getEsc_length hget
                have hl3 := getEsc_length hget3
                have ht : cs1.tail.length ≤ cs1.length := by cases cs1 <;> simp
                have hlt := ih cs3 (by simp only [List.length_cons] at *; omega) true rs2 rest2 hrec
                simp only [List.length_cons] at *
                omega
          · split at h
            · cases h
            · rename_i rs2 rest2 hrec
              simp only [Option.some.injEq, Prod.mk.injEq] at h
              obtain ⟨h1, h2⟩ := h
              subst h2
              have hl1 := getEsc_length hget
              have hlt := ih cs1 (by simp only [List.length_cons] at *; omega) true rs2 rest2 hrec
              simp only [List.length_cons] at *
              omega

theorem scanRanges_length {cs : Str} {seen : Bool} {rs : List (Char × Char)} {rest : Str}
    (h : scanRanges cs seen = some (rs, rest)) : rest.length < cs.length :=
  scanRanges_length_aux cs.length cs le_rfl seen rs rest h
/-- Whether a rune falls in a parsed character class (with optional
negation), as in Go `matchChunk`'s `[` case. -/
def inClass (neg : Bool) (ranges : List (Char × Char)) (d : Char) : Bool :=
  let m := ranges.any (fun r => r.1 ≤ d ∧ d ≤ r.2)
  if neg then !m else m

/-- Model of Go `path/filepath.Match` on rune sequences: `*` matches any
run of non-separator runes, `?` one non-separator rune, `[...]`/`[^...]`
character classes, backslash escapes, all anchored at both ends; `none`
models `ErrBadPattern`.  Go's chunk-wise scan with star backtracking is
rendered as direct recursion: a consecutive run of `*`s collapses to one,
a trailing `*` matches the rest iff it has no separator, and otherwise the
star tries the remaining pattern at every suffix of the name without
crossing a separator.  One deliberate simplification: where Go, after a
chunk mismatch, still scans the *remaining* pattern and reports
`ErrBadPattern` for a malformed later class, this model returns
`some false`; the caller `globMatch` collapses both to `false`, so the
modelled `globMatch` agrees with the source either way. -/
def globRun : Str → Str → Option Bool
  | [], name => some name.isEmpty
  | c :: p, name =>
    if c = '*' then
      let p2 := p.dropWhile (fun d => d = '*')
      if p2 = [] then some (!name.contains '/')
      else
        match globRun p2 name with
        | none => none
        | some true => some true
        | some false =>
          match name with
          | [] => some false
          | d :: rest => if d = '/' then some false else globRun (c :: p2) rest
    else if c = '?' then
      match name with
      | [] => some false
      | d :: rest => if d = '/' then some false else globRun p rest
    else if c = '[' then
      match hsc : scanRanges (if p.head? = some '^' then p.tail else p) false with
      | none => none
      | some (ranges, p2) =>
        match name with
        | [] => some false
        | d :: rest =>
          if inClass (p.head? = some '^') ranges d then globRun p2 rest else some false
    else if c = '\\' then
      match p with
      | [] => none
      | e :: p2 =>
        match name with
        | [] => some false
        | d :: rest => if d = e then globRun p2 rest else some false
    else
      match name with
      | [] => some false
      | d :: rest => if d = c then globRun p rest else some false
termination_by p name => 2 * p.length + name.length
decreasing_by
  all_goals
    first
    | (have hsl := scanRanges_length hsc
       have htl : p.tail.length ≤ p.length := by cases p <;> simp
       simp only [List.length_cons] at *
       split at hsl <;> omega)
    | (have hdw := dropWhile_length_le (fun d => d = '*') p
       simp only [List.length_cons] at *
       omega)
    | (simp only [List.length_cons] at *
       omega)
    | omega

/-- Model of the `filepath.Match` call in `globMatch`: pattern against
name, `none` for `ErrBadPattern`. -/
def filepathMatch (pattern name : Str) : Option Bool := globRun pattern name

/-- Source `globMatch` (`highlight.go`): on an invalid pattern, fail
closed (no match). -/
def globMatch (pattern name : Str) : Bool :=
  match filepathMatch pattern name with
  | none => false
  | some ok => ok


/-! ## Highlight engine data model (source: `pkg/highlight/highlight.go` and
`pkg/config/config.go`) -/

/-- Shallow model of a compiled Go `*regexp.Regexp`: the bundle of
behaviors the highlight package calls on it.  `matchString` is
`MatchString`; `findSpans` is the list of non-overlapping leftmost
full-match spans that drives `ReplaceAllStringFunc`; `findAllSubmatchIndex`
is `FindAllStringSubmatchIndex(s, -1)` (per match: full span then one
start/end pair per capture group, `-1` for groups that did not
participate); `subexpIndex` is `SubexpIndex`.  The regex engine itself is
a Go library and is left abstract; concrete instances below pin down its
documented output on the inputs the claims mention. -/
structure Regexp where
  matchString : Str → Bool
  findSpans : Str → List (Nat × Nat)
  findAllSubmatchIndex : Str → List (List Int)
  subexpIndex : Str → Int

/-- Source `config.HighlightRule` (only the fields the highlight package
reads). -/
structure HighlightRule where
  kind : Str := []
  pattern : Str := []
  color : Str := []
  bold : Bool := false
  underline : Bool := false
  caseInsensitive : Bool := false
  wholeLine : Bool := false
  channels : List Str := []
  excludeChannels : List Str := []
  groups : List Str := []

/-- The runes Go `regexp.QuoteMeta` escapes. -/
def regexSpecials : Str :=
  ['\\', '.', '+', '*', '?', '(', ')', '|', '[', ']',
   Char.ofNat 123, Char.ofNat 125, '^', '$']

/-- Model of Go `regexp.QuoteMeta`. -/
def quoteMeta (s : Str) : Str :=
  s.foldr (fun c acc => (if c ∈ regexSpecials then ['\\', c] else [c]) ++ acc) []

/-- Source `compileRule`, with the Go `regexp.Compile` library call passed
in as an oracle `regexpCompile` (`none` = compilation error).  Trims the
pattern; empty pattern or unknown kind yields `none`; `word`/unset
patterns are quoted and wrapped in word-boundary anchors; the
case-insensitive flag prepends an inline `(?i)` marker (for `regex` kind
only when not already present). -/
def compileRule (regexpCompile : Str → Option Regexp) (r : HighlightRule) : Option Regexp :=
  let pat := trimSpace r.pattern
  if pat = [] then none
  else if toLowerStr r.kind = "regex".data then
    regexpCompile (if r.caseInsensitive ∧ ¬ ("(?i)".data.isPrefixOf pat)
      then "(?i)".data ++ pat else pat)
  else if toLowerStr r.kind = "word".data ∨ toLowerStr r.kind = [] then
    regexpCompile ((if r.caseInsensitive then "(?i)".data else []) ++
      "\\b".data ++ quoteMeta pat ++ "\\b".data)
  else none

/-- The final pattern string `compileRule` hands to the regexp compiler
(meaningful when the trimmed pattern is non-empty and the kind is valid). -/
def derivedPattern (r : HighlightRule) : Str :=
  let pat := trimSpace r.pattern
  if toLowerStr r.kind = "regex".data then
    (if r.caseInsensitive ∧ ¬ ("(?i)".data.isPrefixOf pat)
      then "(?i)".data ++ pat else pat)
  else (if r.caseInsensitive then "(?i)".data else []) ++
    "\\b".data ++ quoteMeta pat ++ "\\b".data

/-- Source `isNumericColor`: digits and commas only. -/
def isNumericColor (s : Str) : Bool :=
  s.all (fun c => ('0' ≤ c ∧ c ≤ '9') ∨ c = ',')

/-- One comma-separated part in `normalizeNumeric`: zero-pad a single
digit, keep two, truncate longer. -/
def normalizePart (p : Str) : Str :=
  if p.length = 1 then '0' :: p
  else if p.length = 2 then p
  else if 2 < p.length then p.take 2
  else p

/-- Source `normalizeNumeric`. -/
def normalizeNumeric (s : Str) : Str :=
  List.intercalate [','] ((s.splitOn ',').map normalizePart)

/-- Source `colorToCode`: trim + lower-case, numeric specifiers normalized
per-channel, otherwise the fixed 16-entry palette, anything else empty. -/
def colorToCode (name : Str) : Str :=
  let n := trimSpace (toLowerStr name)
  if n = [] then []
  else if isNumericColor n then normalizeNumeric n
  else if n = "white".data then "00".data
  else if n = "black".data then "01".data
  else if n = "blue".data ∨ n = "navy".data then "02".data
  else if n = "green".data then "03".data
  else if n = "red".data then "04".data
  else if n = "brown".data ∨ n = "maroon".data then "05".data
  else if n = "purple".data then "06".data
  else if n = "orange".data ∨ n = "olive".data then "07".data
  else if n = "yellow".data then "08".data
  else if n = "lightgreen".data ∨ n = "lime".data then "09".data
  else if n = "teal".data ∨ n = "cyan".data then "10".data
  else if n = "lightcyan".data ∨ n = "aqua".data then "11".data
  else if n = "lightblue".data ∨ n = "royal".data then "12".data
  else if n = "pink".data ∨ n = "fuchsia".data then "13".data
  else if n = "grey".data ∨ n = "gray".data then "14".data
  else if n = "lightgrey".data ∨ n = "lightgray".data ∨ n = "silver".data then "15".data
  else []

/-- Source `buildStyle`: bold code, underline code, then color marker plus
mapped color code, each conditional, in this order. -/
def buildStyle (r : HighlightRule) : Str :=
  (if r.bold then [ircBold] else []) ++
  (if r.underline then [ircUnder] else []) ++
  (if colorToCode r.color ≠ [] then ircColor :: colorToCode r.color else [])

/-- Decimal digits predicate. -/
def isDigits (s : Str) : Bool := s.all (fun c => '0' ≤ c ∧ c ≤ '9')

/-- Numeric value of a digit string. -/
def digitsVal (ds : Str) : Nat := ds.foldl (fun a c => a * 10 + (c.toNat - 48)) 0

/-- Model of Go `strconv.Atoi`: optional sign then at least one digit
(overflow of 64-bit ints is not modelled; group selectors are tiny). -/
def parseAtoi (s : Str) : Option Int :=
  match s with
  | [] => none
  | '+' :: ds => if ds ≠ [] ∧ isDigits ds then some (digitsVal ds : Int) else none
  | '-' :: ds => if ds ≠ [] ∧ isDigits ds then some (-(digitsVal ds : Int)) else none
  | ds => if isDigits ds then some (digitsVal ds : Int) else none

/-- Source `uniqueInts`: first-seen order deduplication. -/
def uniqueInts (l : List Int) : List Int :=
  l.foldl (fun acc v => if v ∈ acc then acc else acc ++ [v]) []

def insertInt (x : Int) : List Int → List Int
  | [] => [x]
  | y :: ys => if x ≤ y then x :: y :: ys else y :: insertInt x ys

/-- Model of Go `sort.Ints`: ascending insertion sort. -/
def sortInts (l : List Int) : List Int := l.foldr insertInt []

/-- The group-selector resolution loop of `New`: each selector is trimmed
(empty ones skipped), tried as an integer (kept when positive; a
non-positive integer is skipped without a name lookup), otherwise resolved
as a named capture group (kept when its index is positive); the result is
deduplicated and sorted ascending. -/
def resolveGroups (re : Regexp) (gs : List Str) : List Int :=
  let idxs := gs.foldr (fun g acc =>
    let g := trimSpace g
    if g = [] then acc
    else match parseAtoi g with
      | some i => if 0 < i then i :: acc else acc
      | none => if 0 < re.subexpIndex g then re.subexpIndex g :: acc else acc) []
  sortInts (uniqueInts idxs)

/-- Source `compiledRule`.  `groupIdxs` keeps the source's `[]int`; `New`
only ever stores positive indices in it. -/
structure compiledRule where
  re : Regexp
  stylePref : Str := []
  wholeLine : Bool := false
  includes : List Str := []
  excludes : List Str := []
  hasFilters : Bool := false
  groupIdxs : List Int := []

/-- The per-rule body of the `New` loop: `nil` regex drops the rule,
otherwise channels are trimmed/lower-cased (empty entries dropped),
`hasFilters` derived, and group selectors resolved. -/
def newCompiled (regexpCompile : Str → Option Regexp) (r : HighlightRule) :
    Option compiledRule :=
  match compileRule regexpCompile r with
  | none => none
  | some re =>
    let includes := r.channels.foldr (fun p acc =>
      if trimSpace p = [] then acc else toLowerStr (trimSpace p) :: acc) []
    let excludes := r.excludeChannels.foldr (fun p acc =>
      if trimSpace p = [] then acc else toLowerStr (trimSpace p) :: acc) []
    some {
      re := re
      stylePref := buildStyle r
      wholeLine := r.wholeLine
      includes := includes
      excludes := excludes
      hasFilters := !includes.isEmpty || !excludes.isEmpty
      groupIdxs := if r.groups.isEmpty then [] else resolveGroups re r.groups }

/-- Source `New`: compile each rule description in order, silently
dropping the ones `compileRule` rejects. -/
def New (regexpCompile : Str → Option Regexp) (rules : List HighlightRule) :
    List compiledRule :=
  rules.foldr (fun r acc =>
    match newCompiled regexpCompile r with
    | none => acc
    | some cr => cr :: acc) []

/-- Source `ruleAppliesTo` (`chLower` is the already-normalized channel):
no channel context admits only filterless rules; otherwise exclusions win,
then includes require a match, else the rule applies. -/
def ruleAppliesTo (r : compiledRule) (chLower : Str) : Bool :=
  if chLower = [] then !r.hasFilters
  else if r.excludes.any (fun ex => globMatch ex chLower) then false
  else if !r.includes.isEmpty then r.includes.any (fun inc => globMatch inc chLower)
  else true

/-- Model of Go `(*Regexp).ReplaceAllStringFunc`, unrolled over the
non-overlapping leftmost full-match spans: copy the text before each
span, rewrite the span with `f`, copy the tail. -/
def replaceAllLoop (s : Str) (f : Str → Str) : Nat → List (Nat × Nat) → Str
  | last, [] => s.drop last
  | last, (a, b) :: rest =>
    slice s last a ++ f (slice s a b) ++ replaceAllLoop s f b rest

def replaceAllFunc (s : Str) (spans : List (Nat × Nat)) (f : Str → Str) : Str :=
  replaceAllLoop s f 0 spans

/-- The inner loop of `applyGroups` over one match's submatch index
vector: for each selected group `g`, read the span at positions
`2*g, 2*g+1` (skipped when out of range), keeping it only when both ends
are non-negative and the span is non-empty. -/
def groupSpans (idx : List Int) (groups : List Int) : List (Int × Int) :=
  groups.foldr (fun g acc =>
    let pos := 2 * g
    if (idx.length : Int) ≤ pos + 1 then acc
    else
      match idx.get? pos.toNat, idx.get? (pos + 1).toNat with
      | some a, some b => if 0 ≤ a ∧ 0 ≤ b ∧ a < b then (a, b) :: acc else acc
      | _, _ => acc) []

/-- The span-collection loop of `applyGroups`: all selected group spans,
across all matches, in match order then group order. -/
def collectSegs (ms : List (List Int)) (groups : List Int) : List (Int × Int) :=
  ms.foldr (fun idx acc => groupSpans idx groups ++ acc) []

def insertSeg (x : Int × Int) : List (Int × Int) → List (Int × Int)
  | [] => [x]
  | y :: ys => if x.1 < y.1 then x :: y :: ys else y :: insertSeg x ys

/-- The `sort.Slice(segs, a < a)` call in `applyGroups`, realized as an
insertion sort; `sort.Slice` fixes no order among equal start offsets, and
the following merge is insensitive to it. -/
def sortSegs (l : List (Int × Int)) : List (Int × Int) := l.foldr insertSeg []

/-- One step of the source's merge loop: start a new interval when the
current span begins after the running interval's end, else extend the
running end when the current span reaches further (the accumulator is kept
reversed; `mergeSegs` reverses it back). -/
def mergeStep (acc : List (Int × Int)) (cur : Int × Int) : List (Int × Int) :=
  match acc with
  | [] => [cur]
  | (a, b) :: rest =>
    if b < cur.1 then cur :: (a, b) :: rest
    else if b < cur.2 then (a, cur.2) :: rest
    else (a, b) :: rest

def mergeSegs (segs : List (Int × Int)) : List (Int × Int) :=
  (segs.foldl mergeStep []).reverse

/-- The output-building loop of `applyGroups`: plain text between merged
intervals, each interval wrapped in style + substring + reset. -/
def renderSegs (s style : Str) : Nat → List (Int × Int) → Str
  | last, [] => s.drop last
  | last, (a, b) :: rest =>
    slice s last a.toNat ++ style ++ slice s a.toNat b.toNat ++ [ircReset] ++
      renderSegs s style b.toNat rest

/-- Source `applyGroups`. -/
def applyGroups (s : Str) (re : Regexp) (groups : List Int) (style : Str) : Str :=
  let ms := re.findAllSubmatchIndex s
  if ms = [] then s
  else
    let segs := collectSegs ms groups
    if segs = [] then s
    else renderSegs s style 0 (mergeSegs (sortSegs segs))

/-- Source `ApplyFor`: empty text or rule set returns the text; the
channel is trimmed and lower-cased; the whole-line pass returns on the
first applicable whole-line rule matching the original text; otherwise
the per-match pass folds every applicable non-whole-line rule over the
current text (plain replacement without group selectors, `applyGroups`
with them). -/
def ApplyFor (rules : List compiledRule) (channel s : Str) : Str :=
  if s.isEmpty || rules.isEmpty then s
  else
    let chLower := toLowerStr (trimSpace channel)
    match rules.find? (fun r => ruleAppliesTo r chLower && r.wholeLine && r.re.matchString s) with
    | some r => r.stylePref ++ s ++ [ircReset]
    | none =>
      rules.foldl (fun out r =>
        if !(ruleAppliesTo r chLower) || r.wholeLine then out
        else if r.groupIdxs.isEmpty then
          replaceAllFunc out (r.re.findSpans out) (fun m => r.stylePref ++ m ++ [ircReset])
        else applyGroups out r.re r.groupIdxs r.stylePref) s


/-! ## Claims C4 and C3 -/

/-- A degenerate compiled regex used where only rule plumbing (not
matching) is under test. -/
def trueRegexp : Regexp :=
  { matchString := fun _ => true
    findSpans := fun _ => []
    findAllSubmatchIndex := fun _ => []
    subexpIndex := fun _ => -1 }

/-- C4: `compileRule` returns `none` (and the rule is then silently
dropped by `New`) exactly when the trimmed pattern is empty, or the
(lower-cased) kind is neither `word`/unset nor `regex`, or the derived
pattern fails to compile; in every other case it returns a compiled rule.
Being `Option`-valued, it never raises. -/
theorem claim4_compile_errors :
    (∀ (regexpCompile : Str → Option Regexp) (r : HighlightRule),
      compileRule regexpCompile r = none ↔
        (trimSpace r.pattern = [] ∨
         ¬(toLowerStr r.kind = "regex".data ∨ toLowerStr r.kind = "word".data ∨
           toLowerStr r.kind = []) ∨
         regexpCompile (derivedPattern r) = none)) ∧
    (∀ (regexpCompile : Str → Option Regexp) (rs : List HighlightRule) (r : HighlightRule),
      compileRule regexpCompile r = none →
      New regexpCompile (r :: rs) = New regexpCompile rs) := by
  constructor
  · intro rc r
    unfold compileRule derivedPattern
    by_cases hp : trimSpace r.pattern = []
    · simp [hp]
    · rw [if_neg hp]
      by_cases hre : toLowerStr r.kind = "regex".data
      · simp only [if_pos hre]
        constructor
        · intro h
          exact Or.inr (Or.inr h)
        · intro h
          rcases h with h | h | h
          · exact absurd h hp
          · exact absurd (Or.inl hre) h
          · exact h
      · rw [if_neg hre]
        by_cases hw : toLowerStr r.kind = "word".data ∨ toLowerStr r.kind = []
        · simp only [if_pos hw, if_neg hre]
          constructor
          · intro h
            exact Or.inr (Or.inr h)
          · intro h
            rcases h with h | h | h
            · exact absurd h hp
            · exact absurd (Or.inr hw) h
            · exact h
        · simp only [if_neg hw]
          constructor
          · intro _
            refine Or.inr (Or.inl ?_)
            intro hcon
            rcases hcon with hcon | hcon
            · exact hre hcon
            · exact hw hcon
          · intro _
            trivial
  · intro rc rs r h
    unfold New
    simp only [List.foldr_cons]
    unfold newCompiled
    rw [h]

/-- C4 witness: an empty (all-blank) pattern is rejected and its rule is
dropped from the set even though the regex oracle succeeds. -/
theorem claim4_compile_errors_witness :
    (compileRule (fun _ => some trueRegexp) { pattern := "  ".data } = none ↔
      (trimSpace "  ".data = [] ∨
       ¬(toLowerStr ([] : Str) = "regex".data ∨ toLowerStr ([] : Str) = "word".data ∨
         toLowerStr ([] : Str) = []) ∨
       (fun _ => some trueRegexp) (derivedPattern { pattern := "  ".data }) = none)) ∧
    New (fun _ => some trueRegexp) [{ pattern := "  ".data }] =
      New (fun _ => some trueRegexp) [] :=
  ⟨claim4_compile_errors.1 (fun _ => some trueRegexp) { pattern := "  ".data },
   claim4_compile_errors.2 (fun _ => some trueRegexp) [] { pattern := "  ".data } (by rfl)⟩

/-- The compiled form of the C3 scenario rule: include filter `#sec*`,
no excludes, hence `hasFilters` (as derived by `New`). -/
def secRule : compiledRule :=
  { re := trueRegexp
    stylePref := [ircBold]
    wholeLine := false
    includes := ["#sec*".data]
    excludes := []
    hasFilters := true
    groupIdxs := [] }

/-- C3: rule applicability over the normalized channel: an empty channel
admits exactly the rules with no include and no exclude filters;
otherwise a matching exclude glob wins and disables the rule; otherwise
present includes require at least one match; otherwise the rule applies.
A malformed glob pattern counts as no match (fail closed).  The `#sec*`
rule is active for `#security`, inactive for `#general` and for the empty
channel. -/
theorem claim3_rule_applicability :
    (∀ (r : compiledRule) (ch : Str),
      r.hasFilters = (!r.includes.isEmpty || !r.excludes.isEmpty) →
      ((ch = [] → (ruleAppliesTo r ch = true ↔ (r.includes = [] ∧ r.excludes = []))) ∧
       (ch ≠ [] → (∃ ex ∈ r.excludes, globMatch ex ch = true) →
         ruleAppliesTo r ch = false) ∧
       (ch ≠ [] → (∀ ex ∈ r.excludes, globMatch ex ch = false) → r.includes ≠ [] →
         ruleAppliesTo r ch = r.includes.any (fun inc => globMatch inc ch)) ∧
       (ch ≠ [] → (∀ ex ∈ r.excludes, globMatch ex ch = false) → r.includes = [] →
         ruleAppliesTo r ch = true))) ∧
    (∀ pattern name : Str, filepathMatch pattern name = none →
      globMatch pattern name = false) ∧
    filepathMatch "[".data "#x".data = none ∧
    globMatch "[".data "#x".data = false ∧
    ruleAppliesTo secRule "#security".data = true ∧
    ruleAppliesTo secRule "#general".data = false ∧
    ruleAppliesTo secRule [] = false := by
  have hbad : filepathMatch "[".data "#x".data = none := by
    simp [filepathMatch, globRun]
    split
    · rfl
    · rename_i ranges p2 hsc
      simp [scanRanges] at hsc
  refine ⟨?_, ?_, hbad, ?_, ?_, ?_, ?_⟩
  · intro r ch hf
    refine ⟨?_, ?_, ?_, ?_⟩
    · intro hch
      subst hch
      rw [ruleAppliesTo, if_pos rfl, hf]
      cases hi : r.includes <;> cases he : r.excludes <;> simp
    · intro hch hex
      rw [ruleAppliesTo, if_neg hch]
      have : r.excludes.any (fun ex => globMatch ex ch) = true := by
        rcases hex with ⟨ex, hmem, hm⟩
        exact List.any_eq_true.mpr ⟨ex, hmem, hm⟩
      rw [if_pos this]
    · intro hch hex hinc
      rw [ruleAppliesTo, if_neg hch]
      have hno : r.excludes.any (fun ex => globMatch ex ch) = false := by
        rw [List.any_eq_false]
        intro ex hmem
        simp [hex ex hmem]
      rw [hno, if_neg (by simp)]
      rw [if_pos (by
        cases hI : r.includes with
        | nil => exact absurd hI hinc
        | cons a l => simp [hI])]
    · intro hch hex hinc
      rw [ruleAppliesTo, if_neg hch]
      have hno : r.excludes.any (fun ex => globMatch ex ch) = false := by
        rw [List.any_eq_false]
        intro ex hmem
        simp [hex ex hmem]
      rw [hno, if_neg (by simp), hinc]
      simp
  · intro pattern name h
    rw [globMatch, h]
  · rw [globMatch, hbad]
  · rw [ruleAppliesTo]
    simp only [secRule]
    rw [if_neg (by simp)]
    simp [globMatch, filepathMatch, globRun]
  · rw [ruleAppliesTo]
    simp only [secRule]
    rw [if_neg (by simp)]
    simp [globMatch, filepathMatch, globRun]
  · rfl

/-- C3 witness: the conditional clauses applied at the `#sec*` rule. -/
theorem claim3_rule_applicability_witness :
    (ruleAppliesTo secRule [] = true ↔ (secRule.includes = [] ∧ secRule.excludes = [])) ∧
    ruleAppliesTo secRule "#security".data =
      secRule.includes.any (fun inc => globMatch inc "#security".data) := by
  have h := claim3_rule_applicability.1 secRule [] (by rfl)
  have h2 := claim3_rule_applicability.1 secRule "#security".data (by rfl)
  refine ⟨h.1 rfl, h2.2.2.1 (by simp) ?_ (by simp [secRule])⟩
  intro ex hmem
  simp [secRule] at hmem


/-! ## Claim C1 -/

theorem find?_append_none {α : Type} {p : α → Bool} {l1 l2 : List α}
    (h : ∀ x ∈ l1, p x = false) : (l1 ++ l2).find? p = l2.find? p := by
  induction l1 with
  | nil => rfl
  | cons a l ih =>
    rw [List.cons_append, List.find?_cons_of_neg, ih]
    · intro x hx
      exact h x (List.mem_cons_of_mem a hx)
    · simp [h a (List.mem_cons_self a l)]

/-- C1: in the whole-line pass of `ApplyFor`, for every rule set, channel
and non-empty text, the first applicable whole-line rule (in rule-set
order) whose pattern matches the still-original text determines the whole
result: style prefix + original text + reset, with no other rule
(whole-line or per-match) contributing. -/
theorem claim1_wholeline_first (pre post : List compiledRule) (r : compiledRule)
    (channel text : Str) (hne : text ≠ [])
    (happ : ruleAppliesTo r (toLowerStr (trimSpace channel)) = true)
    (hwl : r.wholeLine = true)
    (hm : r.re.matchString text = true)
    (hpre : ∀ q ∈ pre,
      ¬(ruleAppliesTo q (toLowerStr (trimSpace channel)) = true ∧
        q.wholeLine = true ∧ q.re.matchString text = true)) :
    ApplyFor (pre ++ r :: post) channel text = r.stylePref ++ text ++ [ircReset] := by
  unfold ApplyFor
  have hnil : (text.isEmpty || (pre ++ r :: post).isEmpty) = false := by
    cases text with
    | nil => exact absurd rfl hne
    | cons a b => simp
  rw [if_neg (by simp [hnil])]
  dsimp only
  rw [find?_append_none (p := fun q =>
      ruleAppliesTo q (toLowerStr (trimSpace channel)) && q.wholeLine && q.re.matchString text)
    (fun q hq => by
      have := hpre q hq
      rcases hA : ruleAppliesTo q (toLowerStr (trimSpace channel)) <;>
        rcases hW : q.wholeLine <;>
        rcases hM : q.re.matchString text <;>
        simp_all)]
  rw [List.find?_cons_of_pos _ (by simp [happ, hwl, hm])]

/-- C1 witness: a two-rule set where the second rule is the first
applicable matching whole-line rule (the first rule's pattern does not
match), on the text `abc`. -/
theorem claim1_wholeline_first_witness :
    ApplyFor
      [{ re := trueRegexp, stylePref := [ircUnder], wholeLine := true,
         includes := ["#x*".data], excludes := [], hasFilters := true, groupIdxs := [] },
       { re := trueRegexp, stylePref := [ircBold], wholeLine := true,
         includes := [], excludes := [], hasFilters := false, groupIdxs := [] }]
      "#chan".data "abc".data = [ircBold] ++ "abc".data ++ [ircReset] := by
  have h := claim1_wholeline_first
    [{ re := trueRegexp, stylePref := [ircUnder], wholeLine := true,
       includes := ["#x*".data], excludes := [], hasFilters := true, groupIdxs := [] }] []
    { re := trueRegexp, stylePref := [ircBold], wholeLine := true,
      includes := [], excludes := [], hasFilters := false, groupIdxs := [] }
    "#chan".data "abc".data (by simp) (by rfl) (by rfl) (by rfl)
    (by
      intro q hq
      simp only [List.mem_singleton] at hq
      subst hq
      intro hcon
      have := hcon.1
      rw [ruleAppliesTo] at this
      rw [if_neg (by simp [trimSpace, toLowerStr, isSpaceChar])] at this
      rw [if_neg (by simp)] at this
      rw [if_pos (by simp)] at this
      simp [globMatch, filepathMatch, globRun, trimSpace, toLowerStr, isSpaceChar] at this)
  exact h


/-! ## Claim C2 -/

/-- Written from the spec's words: merge overlapping or touching spans
into maximal disjoint intervals — the next span merges into the running
interval iff its start is ≤ the running interval's end (extending the end
to the maximum). -/
def mergeRun (cur : Int × Int) : List (Int × Int) → List (Int × Int)
  | [] => [cur]
  | y :: ys =>
    if y.1 ≤ cur.2 then mergeRun (cur.1, max cur.2 y.2) ys
    else cur :: mergeRun y ys

/-- Written from the spec's words: top-level entry of the merge. -/
def mergeSpansSpec : List (Int × Int) → List (Int × Int)
  | [] => []
  | x :: xs => mergeRun x xs

theorem foldl_mergeStep_run (xs : List (Int × Int)) :
    ∀ (cur : Int × Int) (acc : List (Int × Int)),
      (xs.foldl mergeStep (cur :: acc)).reverse = acc.reverse ++ mergeRun cur xs := by
  induction xs with
  | nil =>
    intro cur acc
    simp [mergeRun]
  | cons y ys ih =>
    intro cur acc
    rw [List.foldl_cons]
    rw [mergeRun]
    by_cases hm : y.1 ≤ cur.2
    · rw [if_pos hm]
      have hstep : mergeStep (cur :: acc) y = (cur.1, max cur.2 y.2) :: acc := by
        rw [mergeStep]
        rw [if_neg (by omega)]
        by_cases hb : cur.2 < y.2
        · rw [if_pos hb, max_eq_right (le_of_lt hb)]
        · rw [if_neg hb, max_eq_left (le_of_not_lt hb)]
      rw [hstep, ih]
    · rw [if_neg hm]
      have hstep : mergeStep (cur :: acc) y = y :: cur :: acc := by
        rw [mergeStep]
        rw [if_pos (by omega)]
      rw [hstep, ih]
      simp

/-- The source's in-place merge loop computes exactly the spec-worded
merge. -/
theorem mergeSegs_eq_spec (segs : List (Int × Int)) :
    mergeSegs segs = mergeSpansSpec segs := by
  cases segs with
  | nil => rfl
  | cons x xs =>
    rw [mergeSegs, mergeSpansSpec, List.foldl_cons]
    have h0 : mergeStep [] x = [x] := rfl
    rw [h0]
    have := foldl_mergeStep_run xs x []
    simpa using this

theorem insertSeg_perm (x : Int × Int) (l : List (Int × Int)) :
    List.Perm (insertSeg x l) (x :: l) := by
  induction l with
  | nil => rfl
  | cons y ys ih =>
    rw [insertSeg]
    split
    · rfl
    · exact List.Perm.trans (List.Perm.cons y ih) (List.Perm.swap x y ys)

theorem sortSegs_perm (l : List (Int × Int)) : List.Perm (sortSegs l) l := by
  induction l with
  | nil => rfl
  | cons x xs ih =>
    rw [sortSegs, List.foldr_cons]
    exact List.Perm.trans (insertSeg_perm x _) (List.Perm.cons x ih)

theorem mem_insertSeg {x y : Int × Int} {l : List (Int × Int)}
    (h : y ∈ insertSeg x l) : y = x ∨ y ∈ l :=
  List.mem_cons.mp ((insertSeg_perm x l).mem_iff.mp h)

theorem insertSeg_sorted (x : Int × Int) (l : List (Int × Int))
    (h : l.Sorted (fun u v => u.1 ≤ v.1)) :
    (insertSeg x l).Sorted (fun u v => u.1 ≤ v.1) := by
  induction l with
  | nil => simp [insertSeg]
  | cons y ys ih =>
    rw [insertSeg]
    rw [List.sorted_cons] at h
    split
    · rename_i hlt
      rw [List.sorted_cons]
      refine ⟨?_, List.sorted_cons.mpr h⟩
      intro b hb
      rcases List.mem_cons.mp hb with hb | hb
      · subst hb
        omega
      · have := h.1 b hb
        omega
    · rename_i hge
      rw [List.sorted_cons]
      refine ⟨?_, ih h.2⟩
      intro b hb
      rcases mem_insertSeg hb with hb | hb
      · subst hb
        omega
      · exact h.1 b hb

theorem sortSegs_sorted (l : List (Int × Int)) :
    (sortSegs l).Sorted (fun u v => u.1 ≤ v.1) := by
  induction l with
  | nil => simp [sortSegs]
  | cons x xs ih =>
    rw [sortSegs, List.foldr_cons]
    exact insertSeg_sorted x _ ih

/-- Modelled from the Go regexp engine: for the C2 pattern (word-boundary
anchored `ip`/`port` groups, dotted quad, colon, one-to-five digits) on
the text `connect to 10.0.0.1:8080 now`, `FindAllStringSubmatchIndex`
returns exactly one match — full span 11–24, group 1 (`ip`) 11–19,
group 2 (`port`) 20–24 — and `SubexpIndex` maps `ip` to 1 and `port` to 2
(hand-checked against the pattern; the text is ASCII, so byte offsets are
rune offsets).  Behaviors the claim never exercises are modelled
degenerately. -/
def ipPortRegexp : Regexp :=
  { matchString := fun s => s = "connect to 10.0.0.1:8080 now".data
    findSpans := fun s =>
      if s = "connect to 10.0.0.1:8080 now".data then [(11, 24)] else []
    findAllSubmatchIndex := fun s =>
      if s = "connect to 10.0.0.1:8080 now".data then [[11, 24, 11, 19, 20, 24]] else []
    subexpIndex := fun g =>
      if g = "port".data then 2 else if g = "ip".data then 1 else -1 }

/-- C2: `applyGroups` collects the spans of every selected capture group
across every match, discards invalid or empty spans, sorts them by start
offset (a permutation, ordered by `≤` on starts), merges spans exactly
when the next start is ≤ the running merged end, and rebuilds the output
as unstyled text between merged intervals with each interval wrapped in
style + substring + reset.  On the `ip:port` scenario with groups
`["port"]`, only `8080` is wrapped. -/
theorem claim2_group_spans :
    (∀ (s : Str) (re : Regexp) (groups : List Int) (style : Str),
      applyGroups s re groups style =
        renderSegs s style 0
          (mergeSpansSpec (sortSegs (collectSegs (re.findAllSubmatchIndex s) groups)))) ∧
    (∀ l : List (Int × Int),
      (sortSegs l).Sorted (fun u v => u.1 ≤ v.1) ∧ List.Perm (sortSegs l) l) ∧
    resolveGroups ipPortRegexp ["port".data] = [2] ∧
    applyGroups "connect to 10.0.0.1:8080 now".data ipPortRegexp [2] [ircBold] =
      "connect to 10.0.0.1:".data ++ [ircBold] ++ "8080".data ++ [ircReset] ++
        " now".data := by
  refine ⟨?_, fun l => ⟨sortSegs_sorted l, sortSegs_perm l⟩, by decide, by decide⟩
  intro s re groups style
  unfold applyGroups
  by_cases hm : re.findAllSubmatchIndex s = []
  · rw [if_pos hm, hm]
    simp [collectSegs, sortSegs, mergeSpansSpec, renderSegs]
  · rw [if_neg hm]
    by_cases hs : collectSegs (re.findAllSubmatchIndex s) groups = []
    · rw [if_pos hs, hs]
      simp [sortSegs, mergeSpansSpec, renderSegs]
    · rw [if_neg hs, mergeSegs_eq_spec]


/-! ## Claim C8 -/

/-- A rune that begins or continues a style prefix (bold, underline,
color marker). -/
def isStyleCtrl (c : Char) : Bool := c = ircBold ∨ c = ircUnder ∨ c = ircColor

/-- Any styling control rune, reset included. -/
def isCtrl (c : Char) : Bool := isStyleCtrl c || c = ircReset

/-- Scanner states: outside any styled span / inside a style prefix's
control-rune run / inside a styled span's body. -/
inductive ScanSt | outside | inPref | inBody

/-- Written from the spec's words (`a style prefix is always paired with
exactly one reset, never nested`): scan the string admitting only
plain text interleaved with spans of the form
style-control-run, plain body, single reset; a second style prefix before
the pending reset (nesting), a reset with no open span, or an unclosed
span rejects the string. -/
def flatScan : ScanSt → Str → Bool
  | .outside, [] => true
  | .outside, c :: rest =>
    if isStyleCtrl c then flatScan .inPref rest
    else if c = ircReset then false
    else flatScan .outside rest
  | .inPref, [] => false
  | .inPref, c :: rest =>
    if isStyleCtrl c then flatScan .inPref rest
    else if c = ircReset then flatScan .outside rest
    else flatScan .inBody rest
  | .inBody, [] => false
  | .inBody, c :: rest =>
    if isStyleCtrl c then false
    else if c = ircReset then flatScan .outside rest
    else flatScan .inBody rest

def flatStyled (s : Str) : Bool := flatScan .outside s

/-- Non-overlapping leftmost occurrences of the literal `l :: ls` in a
string, with positions offset by `pos`: the match spans Go's regexp
produces for a pattern that is a plain literal (a `regex`-kind rule whose
pattern has no metacharacters). -/
def findLit (l : Char) (ls : Str) (pos : Nat) : Str → List (Nat × Nat)
  | [] => []
  | c :: rest =>
    if (l :: ls).isPrefixOf (c :: rest) then
      (pos, pos + ls.length + 1) :: findLit l ls (pos + ls.length + 1) (rest.drop ls.length)
    else findLit l ls (pos + 1) rest
termination_by s => s.length
decreasing_by
  · simp only [List.length_cons]
    have := List.length_drop ls.length rest
    omega
  · simp only [List.length_cons]
    omega

/-- The regexp behaviors of a plain-literal pattern `l :: ls`. -/
def litRegexp (l : Char) (ls : Str) : Regexp :=
  { matchString := fun s => !(findLit l ls 0 s).isEmpty
    findSpans := findLit l ls 0
    findAllSubmatchIndex := fun s =>
      (findLit l ls 0 s).map (fun ab => [(ab.1 : Int), (ab.2 : Int)])
    subexpIndex := fun _ => -1 }

/-- First counterexample rule: `regex`-kind literal `abc`, bold, no
filters, no groups. -/
def nestRule1 : compiledRule :=
  { re := litRegexp 'a' "bc".data, stylePref := [ircBold] }

/-- Second counterexample rule: `regex`-kind literal `b`, bold, no
filters, no groups. -/
def nestRule2 : compiledRule :=
  { re := litRegexp 'b' [], stylePref := [ircBold] }


/-- A well-formed style prefix: a non-empty run of style control runes
followed only by non-control runes (the shape `buildStyle` emits whenever
it emits anything: bold/underline codes, then a color marker and its
digit/comma code). -/
def wfPref (p : Str) : Bool :=
  !(p.takeWhile isStyleCtrl).isEmpty &&
    (p.dropWhile isStyleCtrl).all (fun c => !isCtrl c)

theorem flatScan_outside_plain (ps : Str) (t : Str)
    (h : ∀ c ∈ ps, isCtrl c = false) :
    flatScan .outside (ps ++ t) = flatScan .outside t := by
  induction ps with
  | nil => rw [List.nil_append]
  | cons c rest ih =>
    have hc := h c (List.mem_cons_self c rest)
    rw [isCtrl, Bool.or_eq_false_iff] at hc
    rw [List.cons_append, flatScan]
    rw [if_neg (by simp [hc.1]), if_neg (by simpa using hc.2)]
    exact ih (fun d hd => h d (List.mem_cons_of_mem c hd))

theorem flatStyled_plain (s : Str) (h : ∀ c ∈ s, isCtrl c = false) :
    flatStyled s = true := by
  have hx := flatScan_outside_plain s [] h
  rw [List.append_nil] at hx
  rw [flatStyled, hx]
  rfl

theorem flatScan_inPref_ctrl (cs : Str) (t : Str)
    (h : ∀ c ∈ cs, isStyleCtrl c = true) :
    flatScan .inPref (cs ++ t) = flatScan .inPref t := by
  induction cs with
  | nil => rw [List.nil_append]
  | cons c rest ih =>
    rw [List.cons_append, flatScan, if_pos (h c (List.mem_cons_self c rest))]
    exact ih (fun d hd => h d (List.mem_cons_of_mem c hd))

theorem flatScan_inBody_plain (ps : Str) (t : Str)
    (h : ∀ c ∈ ps, isCtrl c = false) :
    flatScan .inBody (ps ++ ([ircReset] ++ t)) = flatScan .outside t := by
  induction ps with
  | nil =>
    rw [List.nil_append, List.cons_append, flatScan]
    rw [if_neg (by decide), if_pos rfl, List.nil_append]
  | cons c rest ih =>
    have hc := h c (List.mem_cons_self c rest)
    rw [isCtrl, Bool.or_eq_false_iff] at hc
    rw [List.cons_append, flatScan]
    rw [if_neg (by simp [hc.1]), if_neg (by simpa using hc.2)]
    exact ih (fun d hd => h d (List.mem_cons_of_mem c hd))

theorem flatScan_inPref_close (ps : Str) (t : Str)
    (h : ∀ c ∈ ps, isCtrl c = false) :
    flatScan .inPref (ps ++ ([ircReset] ++ t)) = flatScan .outside t := by
  cases ps with
  | nil =>
    rw [List.nil_append, List.cons_append, flatScan]
    rw [if_neg (by decide), if_pos rfl, List.nil_append]
  | cons c rest =>
    have hc := h c (List.mem_cons_self c rest)
    rw [isCtrl, Bool.or_eq_false_iff] at hc
    rw [List.cons_append, flatScan]
    rw [if_neg (by simp [hc.1]), if_neg (by simpa using hc.2)]
    exact flatScan_inBody_plain rest t (fun d hd => h d (List.mem_cons_of_mem c hd))

/-- One well-formed styled span consumes cleanly: prefix, control-free
body, reset, then continue outside. -/
theorem flatScan_span (pref body t : Str)
    (hpref : wfPref pref = true)
    (hbody : ∀ c ∈ body, isCtrl c = false) :
    flatScan .outside (pref ++ (body ++ ([ircReset] ++ t))) = flatScan .outside t := by
  rw [wfPref, Bool.and_eq_true] at hpref
  obtain ⟨hrun, htail⟩ := hpref
  have hsplit : pref = pref.takeWhile isStyleCtrl ++ pref.dropWhile isStyleCtrl :=
    (List.takeWhile_append_dropWhile isStyleCtrl pref).symm
  cases hrn : pref.takeWhile isStyleCtrl with
  | nil => rw [hrn] at hrun; simp at hrun
  | cons c cr =>
    have hcrun : ∀ d ∈ c :: cr, isStyleCtrl d = true := by
      intro d hd
      rw [← hrn] at hd
      exact List.mem_takeWhile_imp hd
    conv_lhs => rw [hsplit, hrn]
    simp only [List.cons_append, List.append_assoc]
    rw [flatScan, if_pos (hcrun c (List.mem_cons_self c cr))]
    rw [flatScan_inPref_ctrl cr _ (fun d hd => hcrun d (List.mem_cons_of_mem c hd))]
    rw [← List.append_assoc (pref.dropWhile isStyleCtrl) body]
    refine flatScan_inPref_close _ t ?_
    intro d hd
    rcases List.mem_append.mp hd with hd | hd
    · have := List.all_eq_true.mp htail d hd
      simpa using this
    · exact hbody d hd

theorem mem_of_mem_slice {c : Char} {s : Str} {a b : Nat} (h : c ∈ slice s a b) :
    c ∈ s :=
  List.take_subset b s (List.drop_subset a (s.take b) h)

/-- The per-match replacement loop only ever produces flat styling:
plain slices of a control-free string interleaved with well-formed
spans. -/
theorem flatScan_replaceAllLoop (s pref : Str)
    (hs : ∀ c ∈ s, isCtrl c = false)
    (hpref : wfPref pref = true) :
    ∀ (spans : List (Nat × Nat)) (last : Nat),
      flatScan .outside (replaceAllLoop s (fun m => pref ++ m ++ [ircReset]) last spans) = true := by
  intro spans
  induction spans with
  | nil =>
    intro last
    rw [replaceAllLoop]
    exact flatStyled_plain _ (fun c hc => hs c (List.drop_subset last s hc))
  | cons ab rest ih =>
    intro last
    obtain ⟨a, b⟩ := ab
    rw [replaceAllLoop]
    rw [List.append_assoc (slice s last a)
      ((pref ++ slice s a b) ++ [ircReset])
      (replaceAllLoop s (fun m => pref ++ m ++ [ircReset]) b rest)]
    rw [List.append_assoc (pref ++ slice s a b) [ircReset]
      (replaceAllLoop s (fun m => pref ++ m ++ [ircReset]) b rest)]
    rw [List.append_assoc pref (slice s a b)
      ([ircReset] ++ replaceAllLoop s (fun m => pref ++ m ++ [ircReset]) b rest)]
    rw [flatScan_outside_plain _ _ (fun c hc => hs c (mem_of_mem_slice hc))]
    rw [flatScan_span pref _ _ hpref (fun c hc => hs c (mem_of_mem_slice hc))]
    exact ih b

/-- The group-rendering loop likewise only produces flat styling. -/
theorem flatScan_renderSegs (s pref : Str)
    (hs : ∀ c ∈ s, isCtrl c = false)
    (hpref : wfPref pref = true) :
    ∀ (segs : List (Int × Int)) (last : Nat),
      flatScan .outside (renderSegs s pref last segs) = true := by
  intro segs
  induction segs with
  | nil =>
    intro last
    rw [renderSegs]
    exact flatStyled_plain _ (fun c hc => hs c (List.drop_subset last s hc))
  | cons ab rest ih =>
    intro last
    obtain ⟨a, b⟩ := ab
    rw [renderSegs]
    rw [List.append_assoc ((slice s last a.toNat ++ pref) ++ slice s a.toNat b.toNat)
      [ircReset] (renderSegs s pref b.toNat rest)]
    rw [List.append_assoc (slice s last a.toNat ++ pref) (slice s a.toNat b.toNat)
      ([ircReset] ++ renderSegs s pref b.toNat rest)]
    rw [List.append_assoc (slice s last a.toNat) pref
      (slice s a.toNat b.toNat ++ ([ircReset] ++ renderSegs s pref b.toNat rest))]
    rw [flatScan_outside_plain _ _ (fun c hc => hs c (mem_of_mem_slice hc))]
    rw [flatScan_span pref _ _ hpref (fun c hc => hs c (mem_of_mem_slice hc))]
    exact ih b.toNat

/-- C8 counterexample: on the two-rule set (bold literal `abc`, then bold
literal `b`) and the text `abc`, the second rule re-matches inside the
first rule's already-styled span, so the output
`⟨bold⟩a⟨bold⟩b⟨reset⟩c⟨reset⟩` nests one styled span inside another. -/
theorem claim8_counterexample :
    flatStyled (ApplyFor [nestRule1, nestRule2] [] "abc".data) = false := by
  have h : ApplyFor [nestRule1, nestRule2] [] "abc".data =
      [ircBold, 'a', ircBold, 'b', ircReset, 'c', ircReset] := by
    simp [ApplyFor, nestRule1, nestRule2, litRegexp, ruleAppliesTo, findLit,
      replaceAllFunc, replaceAllLoop, slice, trimSpace, toLowerStr, ircBold, ircReset]
  rw [h]
  decide

/-- C8 (amended): for a rule set with at most one rule, a well-formed
style prefix and control-free input, every emitted style prefix is paired
with exactly one reset and styled spans are never nested; with two or
more rules a later per-match rule can match inside an earlier rule's
styled span and nest prefixes (see the counterexample). -/
theorem claim8_flat_single (r : compiledRule) (channel text : Str)
    (hctrl : ∀ c ∈ text, isCtrl c = false)
    (hpref : wfPref r.stylePref = true) :
    flatStyled (ApplyFor [r] channel text) = true := by
  unfold ApplyFor
  cases text with
  | nil => rfl
  | cons c0 rest0 =>
    rw [if_neg (by simp)]
    dsimp only
    cases hfind : List.find?
        (fun q => ruleAppliesTo q (toLowerStr (trimSpace channel)) && q.wholeLine &&
          q.re.matchString (c0 :: rest0)) [r] with
    | some q =>
      have hq : q = r := by
        rcases List.mem_singleton.mp (List.mem_of_find?_eq_some hfind) with h
        exact h
      subst hq
      rw [flatStyled]
      dsimp only
      have hsp := flatScan_span q.stylePref (c0 :: rest0) [] hpref hctrl
      rw [List.append_nil] at hsp
      rw [List.append_assoc]
      rw [hsp]
      rfl
    | none =>
      rw [List.foldl_cons, List.foldl_nil]
      by_cases hskip : (!ruleAppliesTo r (toLowerStr (trimSpace channel)) || r.wholeLine) = true
      · rw [if_pos hskip]
        exact flatStyled_plain _ hctrl
      · rw [if_neg hskip]
        by_cases hg : r.groupIdxs.isEmpty = true
        · rw [if_pos hg]
          rw [replaceAllFunc, flatStyled]
          exact flatScan_replaceAllLoop _ _ hctrl hpref _ 0
        · rw [if_neg hg]
          rw [applyGroups]
          dsimp only
          split
          · exact flatStyled_plain _ hctrl
          · split
            · exact flatStyled_plain _ hctrl
            · rw [flatStyled]
              exact flatScan_renderSegs _ _ hctrl hpref _ 0

/-- C8 witness: the amended flatness property on a concrete single-rule
set (bold literal `abc` applied to `abc`). -/
theorem claim8_flat_single_witness :
    flatStyled (ApplyFor [nestRule1] [] "abc".data) = true :=
  claim8_flat_single nestRule1 [] "abc".data (by decide) (by decide)


end Ircpush
